import Mathlib

/-!
Shallow embedding of the `us-treasury-yield` crate's core
(`src/treasury_curve.rs`, `src/request.rs`, `src/error.rs`), with the
external collaborators (`str::parse::<f64>`, `time::Date` parsing and
arithmetic, the curl fetch) modelled explicitly.

Conventions:
* `f64` yield values are modelled as exact decimals (`Decimal`, an integer
  mantissa with a power-of-ten denominator exponent): the claims under study
  only parse values and move them around, no floating-point arithmetic is
  ever performed on them.
* `time::Date` is modelled as `Int`, the day number of the date in the
  proleptic Gregorian calendar (a strictly monotone, day-additive encoding:
  ordering and `+ n.days()` coincide with the crate's).
* A Rust panic (`unwrap`/`expect`/out-of-bounds index) is modelled as the
  `none` of `Option`, or the `panicked` constructor of `RResult`.
-/

deriving instance DecidableEq for Except

namespace USTY

/-- Model of the `TreasuryCurveError` enum from `src/error.rs`.  The payloads
of `FetchData`/`WebParseUtf8` (curl / utf8 error details) are irrelevant to
every claim and are dropped. -/
inductive TreasuryCurveError
  | MissingLabel (label : String)
  | InvalidYear (year : Int)
  | OutsideDateRange (date : String)
  | FetchData
  | WebParseUtf8
deriving DecidableEq, Repr

/-- Result of a Rust computation that may also panic (`unwrap`, `expect`,
out-of-bounds indexing): `ok`, an error value, or a panic. -/
inductive RResult (α : Type)
  | ok (val : α)
  | err (e : TreasuryCurveError)
  | panicked
deriving DecidableEq, Repr

def CURVE_LENGTH : Nat := 13

/-- The 13 canonical tenor labels, in canonical order (`CURVE_LABELS`). -/
def CURVE_LABELS : List String :=
  ["1 Mo", "2 Mo", "3 Mo", "4 Mo", "6 Mo", "1 Yr", "2 Yr", "3 Yr", "5 Yr",
   "7 Yr", "10 Yr", "20 Yr", "30 Yr"]

/-- Exact decimal value: denotes `num / 10 ^ pow`.  This is the model of a
parsed `f64` yield (the CSV only carries plain decimal literals, which f64
represents and which this represents exactly, up to f64 rounding that no
claim observes). -/
structure Decimal where
  num : Int
  pow : Nat
deriving DecidableEq, Repr

/-- Model of `TreasuryCurve([Option<f64>; 13])`: the 13-slot array is a list;
`load_curve` only ever builds it after checking length 13. -/
abbrev TreasuryCurve := List (Option Decimal)

/-- Model of `search_labels`: position of `label` in `CURVE_LABELS`. -/
def search_labels (label : String) : Option Nat :=
  CURVE_LABELS.findIdx? (fun l => l == label)

/-- Model of `TreasuryCurve::get_label`.  The Rust code indexes `self.0[index]`;
`index` is always < 13 (a position in the 13-element label table) and every
constructed curve has length 13, so `getD` returns the stored slot. -/
def get_label (c : TreasuryCurve) (label : String) :
    Except TreasuryCurveError (Option Decimal) :=
  match search_labels label with
  | some index => .ok (c.getD index none)
  | none => .error (.MissingLabel label)

/-- Loop body of `active_flags`: fold over the header fields after the date
column, accumulating the bit flags, with early error return. -/
def active_flags_go : List String → Nat → Except TreasuryCurveError Nat
  | [], flags => .ok flags
  | h :: t, flags =>
    match search_labels h with
    | some index => active_flags_go t (flags ||| (1 <<< index))
    | none => .error (.MissingLabel h)

/-- Model of `active_flags`: skip the first header field ("Date"), then OR in
`1 << index` for each recognized label, failing on the first unknown one.
The Rust `u16` never overflows: only bits 0..12 are ever set. -/
def active_flags (headers : List String) : Except TreasuryCurveError Nat :=
  active_flags_go (headers.drop 1) 0

/-- Model of `u16::count_ones` on the 16-bit flags value. -/
def count_ones (flags : Nat) : Nat :=
  ((List.range 16).filter (fun i => flags.testBit i)).length

/-- Digits of a numeral to its value, most significant first. -/
def digitsToNat (cs : List Char) : Nat :=
  cs.foldl (fun acc c => acc * 10 + (c.toNat - 48)) 0

/-- Model of Rust `str::parse::<f64>` restricted to plain decimal literals
(optional sign, integer digits, optional fractional part), which is the only
shape the Treasury CSV yields carry.  Exponent / `inf` / `NaN` forms are not
modelled; the value is represented exactly. -/
def parseF64 (s : String) : Option Decimal :=
  let cs := s.toList
  let sgn : Int := match cs with
    | '-' :: _ => -1
    | _ => 1
  let body : List Char := match cs with
    | '-' :: rest => rest
    | '+' :: rest => rest
    | _ => cs
  let ipart := body.takeWhile (fun c => c ≠ '.')
  let rest := body.dropWhile (fun c => c ≠ '.')
  match rest with
  | [] =>
    if ipart ≠ [] ∧ ipart.all Char.isDigit then
      some ⟨sgn * (digitsToNat ipart : Int), 0⟩
    else none
  | _ :: fpart =>
    if (ipart ≠ [] ∨ fpart ≠ []) ∧ ipart.all Char.isDigit ∧ fpart.all Char.isDigit then
      some ⟨sgn * ((digitsToNat ipart : Int) * 10 ^ fpart.length +
        (digitsToNat fpart : Int)), fpart.length⟩
    else none

/-- Leap-year test of the proleptic Gregorian calendar (as used by the
`time` crate). -/
def isLeapYear (y : Int) : Bool :=
  y % 4 == 0 && (y % 100 != 0 || y % 400 == 0)

/-- Number of days in a month of the proleptic Gregorian calendar. -/
def daysInMonth (y m : Int) : Int :=
  if m == 2 then (if isLeapYear y then 29 else 28)
  else if m == 4 || m == 6 || m == 9 || m == 11 then 30
  else 31

/-- Day number of a Gregorian calendar date (days since 1970-01-01,
Hinnant's `days_from_civil`).  This is the `Int` model of `time::Date`. -/
def daysFromCivil (y m d : Int) : Int :=
  let y' := if m ≤ 2 then y - 1 else y
  let era := Int.fdiv y' 400
  let yoe := y' - era * 400
  let doy := Int.fdiv (153 * (if m > 2 then m - 3 else m + 9) + 2) 5 + d - 1
  let doe := yoe * 365 + Int.fdiv yoe 4 - Int.fdiv yoe 100 + doy
  era * 146097 + doe - 719468

/-- Digit character to its value. -/
def charDigit (c : Char) : Int := (c.toNat : Int) - 48

/-- Model of `time::Date::parse` with the crate's fixed
`[month]/[day]/[year]` format description (zero-padded two-digit month and
day, four-digit year), validating calendar ranges, returning the day-number
model of the date. -/
def parseDate (s : String) : Option Int :=
  match s.toList with
  | [m1, m2, '/', d1, d2, '/', y1, y2, y3, y4] =>
    if (m1.isDigit && m2.isDigit && d1.isDigit && d2.isDigit &&
        y1.isDigit && y2.isDigit && y3.isDigit && y4.isDigit) then
      let month := 10 * charDigit m1 + charDigit m2
      let day := 10 * charDigit d1 + charDigit d2
      let year := 1000 * charDigit y1 + 100 * charDigit y2 +
        10 * charDigit y3 + charDigit y4
      if 1 ≤ month ∧ month ≤ 12 ∧ 1 ≤ day ∧ day ≤ daysInMonth year month then
        some (daysFromCivil year month day)
      else none
    else none
  | _ => none

/-- Accumulator pass of `splitChar`. -/
def splitCharAux (sep : Char) : List Char → List Char → List (List Char)
  | [], acc => [acc.reverse]
  | c :: cs, acc =>
    if c == sep then acc.reverse :: splitCharAux sep cs []
    else splitCharAux sep cs (c :: acc)

/-- Model of Rust `str::split(sep: char)`: the fields between occurrences of
`sep`, keeping empty fields (so the empty string yields one empty field). -/
def splitChar (sep : Char) (s : String) : List String :=
  (splitCharAux sep s.toList []).map (fun l => String.mk l)

/-- Model of Rust `str::replace(c, "")` for a one-character pattern: drop
every occurrence of the character. -/
def removeChar (c : Char) (s : String) : String :=
  String.mk (s.toList.filter (fun x => x ≠ c))

/-- Turn a list of options into an option of a list (`none` iff any element
is `none`); models a sequence of `unwrap`s inside a `collect`, where the
first `None` panics. -/
def sequenceOptions {α : Type} : List (Option α) → Option (List α)
  | [] => some []
  | none :: _ => none
  | some a :: t => (sequenceOptions t).map (fun l => a :: l)

/-- Model of `load_curve`: split the row on commas, skip the date field,
parse every field as `f64` (a parse failure is the Rust `unwrap` panic,
i.e. `none`); when the flags do not have all 13 bits set, walk `i` in
`0..13` inserting an explicit `None` at position `i` for every unset bit
(`Vec::insert`); finally the `try_into` 13-array conversion panics (`none`)
unless the result has length exactly 13.

`List.insertIdx` is a no-op when the position exceeds the list length where
`Vec::insert` would panic; in that case the final length-13 check fails as
well (fewer than 13 - popcount insertions happened on a list of length
popcount), so both models yield a panic. -/
def load_curve (data : String) (flags : Nat) : Option TreasuryCurve :=
  match sequenceOptions (((splitChar ',' data).drop 1).map parseF64) with
  | none => none
  | some vals =>
    let data0 : TreasuryCurve := vals.map some
    let data1 :=
      if count_ones flags ≠ 13 then
        (List.range CURVE_LENGTH).foldl
          (fun d i => if flags.testBit i then d else d.insertIdx i none) data0
      else data0
    if data1.length = CURVE_LENGTH then some data1 else none

/-- Model of `load_date`: parse the first comma-separated field of the row
as a date; the Rust `unwrap` on a parse failure is the `none` panic. -/
def load_date (data : String) : Option Int :=
  parseDate ((splitChar ',' data).headD "")

/-- Model of `sort_arrays`: zip the two vectors, stable-sort by the first
component (descending when `ascending = false`, the only mode the crate
uses), unzip.  Rust's `slice::sort_by` is a stable sort; a stable sort's
output is determined by the comparator alone, so the structurally recursive
`List.insertionSort` is an extensionally faithful model of it. -/
def sort_arrays {α : Type} (primary : List Int) (secondary : List α)
    (ascending : Bool) : List Int × List α :=
  let zipped := primary.zip secondary
  let sorted :=
    if ascending then zipped.insertionSort (fun a b => a.1 ≤ b.1)
    else zipped.insertionSort (fun a b => b.1 ≤ a.1)
  (sorted.map Prod.fst, sorted.map Prod.snd)

/-- Model of `TreasuryCurveHistory`: paired curves and dates vectors,
stored latest-first. -/
structure TreasuryCurveHistory where
  curves : List TreasuryCurve
  dates : List Int
deriving DecidableEq, Repr

/-- Model of `TryFrom<TreasuryCurveCsv> for TreasuryCurveHistory`, factored
through the line list: take the header line, strip every double-quote
character, split on commas, resolve flags (error return on unknown label);
then decode every remaining line's curve and date (any row panic aborts),
sort descending, and assemble the history. -/
def tryFromLines (lines : List String) : RResult TreasuryCurveHistory :=
  match active_flags (splitChar ',' (removeChar '\"' (lines.headD ""))) with
  | .error e => .err e
  | .ok flags =>
    match sequenceOptions ((lines.drop 1).map (fun l => load_curve l flags)),
        sequenceOptions ((lines.drop 1).map load_date) with
    | some curves, some dates =>
      .ok ⟨(sort_arrays dates curves false).2, (sort_arrays dates curves false).1⟩
    | _, _ => .panicked

/-- Model of the `try_from` entry point on the raw CSV string: split the
blob on newlines and build from the lines. -/
def tryFrom (value : String) : RResult TreasuryCurveHistory :=
  tryFromLines (splitChar '\n' value)

/-- Model of `TreasuryCurveHistory::latest`: index 0 of both vectors;
panics (`none`) on an empty history. -/
def latest (h : TreasuryCurveHistory) : Option (Int × TreasuryCurve) :=
  match h.dates, h.curves with
  | d :: _, c :: _ => some (d, c)
  | _, _ => none

def MAX_FORWARD_DAYS : Int := 5

/-- Loop of `closest_date`: increment `index`, stop at the first entry with
date ≤ `request_date`.  The Rust loop indexes `self.dates[index]` unchecked,
so running past the end is a panic (`none`); `fuel` only bounds the
recursion and is set to `dates.length`, enough to reach the out-of-bounds
panic point. -/
def closest_loop (dates : List Int) (request_date : Int) :
    Nat → Nat → Option Nat
  | _, 0 => none
  | index, fuel + 1 =>
    match dates[index + 1]? with
    | none => none
    | some d =>
      if d ≤ request_date then some (index + 1)
      else closest_loop dates request_date (index + 1) fuel

/-- Model of `TreasuryCurveHistory::closest_date`: exact date or the closest
one working backwards in time; the two `unwrap`s on first/last panic
(`none`) on an empty history. -/
def closest_date (h : TreasuryCurveHistory) (request_date : Int) :
    Option Nat :=
  match h.dates.head?, h.dates.getLast? with
  | some first, some last =>
    if request_date ≥ first then some 0
    else if request_date ≤ last then some (h.dates.length - 1)
    else closest_loop h.dates request_date 0 h.dates.length
  | _, _ => none

/-- Model of `TreasuryCurveHistory::from_date`: range check against the
oldest date and the newest date plus the 5-day grace window, then index the
entry found by `closest_date`.  The error payload is the request date's
string rendering (the model renders the day number where Rust renders the
calendar date; no claim inspects the payload). -/
def from_date (h : TreasuryCurveHistory) (request_date : Int) :
    RResult (Int × TreasuryCurve) :=
  match h.dates.getLast?, h.dates.head? with
  | some last, some first =>
    if request_date < last ∨ request_date > first + MAX_FORWARD_DAYS then
      .err (.OutsideDateRange (toString request_date))
    else
      match closest_date h request_date with
      | some index =>
        match h.dates[index]?, h.curves[index]? with
        | some d, some c => .ok (d, c)
        | _, _ => .panicked
      | none => .panicked
  | _, _ => .panicked

def MIN_YEAR_AVAIL : Int := 1990

/-- Model of `treasury_url` from `src/request.rs`, with the process clock
(`current_year`) passed explicitly: the year range check, then the URL. -/
def treasury_url (current_year year : Int) :
    Except TreasuryCurveError String :=
  if year < MIN_YEAR_AVAIL ∨ year > current_year then
    .error (.InvalidYear year)
  else
    .ok ("https://home.treasury.gov/resource-center/data-chart-center/interest-rates/daily-treasury-rates.csv/"
      ++ toString year
      ++ "/all?type=daily_treasury_yield_curve&page&_format=csv")

/-- Model of `fetch_csv_year`: build the URL (propagating `InvalidYear`),
then hand it to the curl transfer, modelled as an oracle `fetch` covering
the network transfer and the utf8 decoding. -/
def fetch_csv_year (current_year : Int)
    (fetch : String → Except TreasuryCurveError String) (year : Int) :
    Except TreasuryCurveError String :=
  match treasury_url current_year year with
  | .error e => .error e
  | .ok url => fetch url

/-! ## Helper lemmas about label resolution -/

lemma search_labels_none_iff (label : String) :
    search_labels label = none ↔ label ∉ CURVE_LABELS := by
  rw [search_labels, List.findIdx?_eq_none_iff]
  constructor
  · intro h hm
    have := h label hm
    simp at this
  · intro h x hx
    simp only [beq_eq_false_iff_ne]
    intro he
    exact h (he ▸ hx)

lemma search_labels_some_of_mem {label : String} (hm : label ∈ CURVE_LABELS) :
    ∃ i, search_labels label = some i ∧ CURVE_LABELS[i]? = some label := by
  simp only [CURVE_LABELS, List.mem_cons, List.not_mem_nil, or_false] at hm
  rcases hm with rfl|rfl|rfl|rfl|rfl|rfl|rfl|rfl|rfl|rfl|rfl|rfl|rfl
  · exact ⟨0, by decide, by decide⟩
  · exact ⟨1, by decide, by decide⟩
  · exact ⟨2, by decide, by decide⟩
  · exact ⟨3, by decide, by decide⟩
  · exact ⟨4, by decide, by decide⟩
  · exact ⟨5, by decide, by decide⟩
  · exact ⟨6, by decide, by decide⟩
  · exact ⟨7, by decide, by decide⟩
  · exact ⟨8, by decide, by decide⟩
  · exact ⟨9, by decide, by decide⟩
  · exact ⟨10, by decide, by decide⟩
  · exact ⟨11, by decide, by decide⟩
  · exact ⟨12, by decide, by decide⟩

lemma active_flags_go_error {t : List String} (hbad : ∃ x ∈ t, x ∉ CURVE_LABELS) :
    ∃ b ∈ t, b ∉ CURVE_LABELS ∧
      ∀ flags, active_flags_go t flags = .error (.MissingLabel b) := by
  induction t with
  | nil => simp at hbad
  | cons x t ih =>
    by_cases hx : x ∈ CURVE_LABELS
    · obtain ⟨i, hi, _⟩ := search_labels_some_of_mem hx
      have hbad' : ∃ y ∈ t, y ∉ CURVE_LABELS := by
        obtain ⟨y, hy, hyn⟩ := hbad
        rcases List.mem_cons.mp hy with rfl|hy'
        · exact absurd hx hyn
        · exact ⟨y, hy', hyn⟩
      obtain ⟨b, hb, hbn, hgo⟩ := ih hbad'
      refine ⟨b, List.mem_cons_of_mem _ hb, hbn, fun flags => ?_⟩
      rw [active_flags_go, hi]
      exact hgo _
    · refine ⟨x, List.mem_cons_self _ _, hx, fun flags => ?_⟩
      rw [active_flags_go, (search_labels_none_iff x).mpr hx]

/-- OR-accumulation step of `active_flags_go` on a recognized label, as a
fold function. -/
def or_step (m : Nat) (x : String) : Nat :=
  m ||| (1 <<< ((search_labels x).getD 0))

instance : RightCommutative or_step :=
  ⟨fun b x y => by
    simp only [or_step, Nat.or_assoc]
    rw [Nat.or_comm (1 <<< ((search_labels x).getD 0))]⟩

lemma active_flags_go_ok {t : List String}
    (hrec : ∀ x ∈ t, x ∈ CURVE_LABELS) (flags : Nat) :
    active_flags_go t flags = .ok (t.foldl or_step flags) := by
  induction t generalizing flags with
  | nil => rfl
  | cons x t ih =>
    obtain ⟨i, hi, _⟩ := search_labels_some_of_mem (hrec x (List.mem_cons_self x t))
    have hstep : or_step flags x = flags ||| (1 <<< i) := by
      rw [or_step, hi]
      rfl
    rw [active_flags_go, hi, List.foldl_cons, hstep]
    exact ih (fun y hy => hrec y (List.mem_cons_of_mem _ hy)) _

/-- C9: column resolution is order-insensitive on the header.  For any two
headers whose post-date fields are permutations of each other and all
recognized, `active_flags` yields the same mask (the first, date, field is
ignored entirely and may differ); consequently any mask obtained from the one
header is obtained from the other, so row decoding — a function of the row
and the mask alone — assigns parsed values to canonical slots independently
of the CSV's column order. -/
theorem active_flags_perm_invariant (h1 h2 : String) (t t' : List String)
    (hperm : t.Perm t') (hrec : ∀ x ∈ t, x ∈ CURVE_LABELS) :
    active_flags (h1 :: t) = active_flags (h2 :: t') ∧
    (∀ flags, active_flags (h1 :: t) = .ok flags →
      active_flags (h2 :: t') = .ok flags) := by
  have hrec' : ∀ x ∈ t', x ∈ CURVE_LABELS := fun x hx =>
    hrec x (hperm.mem_iff.mpr hx)
  have h₁ : active_flags (h1 :: t) = .ok (t.foldl or_step 0) :=
    active_flags_go_ok hrec 0
  have h₂ : active_flags (h2 :: t') = .ok (t'.foldl or_step 0) :=
    active_flags_go_ok hrec' 0
  have hfold : t.foldl or_step 0 = t'.foldl or_step 0 := hperm.foldl_eq 0
  refine ⟨by rw [h₁, h₂, hfold], fun flags hf => ?_⟩
  rw [h₂, ← hfold, ← h₁, hf]

/-- C9 witness: a concrete permuted header pair yields the same mask. -/
theorem active_flags_perm_invariant_witness :
    (["3 Mo", "1 Mo"].Perm ["1 Mo", "3 Mo"]) ∧
    active_flags ["Date", "3 Mo", "1 Mo"] = active_flags ["Date", "1 Mo", "3 Mo"] :=
  ⟨List.Perm.swap _ _ _,
    (active_flags_perm_invariant "Date" "Date" _ _ (List.Perm.swap _ _ _)
      (by decide)).1⟩

/-- C3: an unrecognized tenor label is never skipped or defaulted:
`get_label` on any snapshot fails with `MissingLabel(label)`; a header whose
post-date fields contain an unrecognized label makes the whole column
resolution fail with `MissingLabel` of an unrecognized label from that
header; and a canonical label resolves to its canonical position, whose
stored optional value `get_label` returns. -/
theorem get_label_missing_spec (c : TreasuryCurve) (label : String)
    (headers : List String) :
    (label ∉ CURVE_LABELS →
      get_label c label = .error (.MissingLabel label)) ∧
    (label ∉ CURVE_LABELS → label ∈ headers.drop 1 →
      ∃ bad, bad ∈ headers.drop 1 ∧ bad ∉ CURVE_LABELS ∧
        active_flags headers = .error (.MissingLabel bad)) ∧
    (label ∈ CURVE_LABELS →
      ∃ index, search_labels label = some index ∧
        CURVE_LABELS[index]? = some label ∧
        get_label c label = .ok (c.getD index none)) := by
  refine ⟨fun hn => ?_, fun hn hmem => ?_, fun hm => ?_⟩
  · rw [get_label, (search_labels_none_iff label).mpr hn]
  · obtain ⟨b, hb, hbn, hgo⟩ := active_flags_go_error ⟨label, hmem, hn⟩
    exact ⟨b, hb, hbn, hgo 0⟩
  · obtain ⟨i, hi, hlab⟩ := search_labels_some_of_mem hm
    exact ⟨i, hi, hlab, by rw [get_label, hi]⟩

/-- C3 witness: concrete instantiation at an unknown and a known label. -/
theorem get_label_missing_spec_witness :
    get_label [] "does_not_exist" = .error (.MissingLabel "does_not_exist") ∧
    (∃ bad, bad ∈ ["Date", "1 Mo", "9 Mo"].drop 1 ∧ bad ∉ CURVE_LABELS ∧
      active_flags ["Date", "1 Mo", "9 Mo"] = .error (.MissingLabel bad)) ∧
    (∃ index, search_labels "3 Mo" = some index ∧
      CURVE_LABELS[index]? = some "3 Mo" ∧
      get_label [] "3 Mo" = .ok (List.getD [] index none)) :=
  ⟨(get_label_missing_spec [] "does_not_exist" []).1 (by decide),
   (get_label_missing_spec [] "9 Mo" ["Date", "1 Mo", "9 Mo"]).2.1
     (by decide) (by decide),
   (get_label_missing_spec [] "3 Mo" []).2.2 (by decide)⟩

/-- C8: a requested year outside `[1990, currentYear]` fails with
`InvalidYear(year)` for every fetch oracle — i.e. before any fetch is
attempted — and a year inside the range passes the check: the URL is built
and the fetch is invoked on it. -/
theorem fetch_csv_year_invalid_year_spec (current_year year : Int)
    (fetch : String → Except TreasuryCurveError String) :
    ((year < MIN_YEAR_AVAIL ∨ year > current_year) →
      fetch_csv_year current_year fetch year = .error (.InvalidYear year)) ∧
    (MIN_YEAR_AVAIL ≤ year → year ≤ current_year →
      ∃ url, treasury_url current_year year = .ok url ∧
        fetch_csv_year current_year fetch year = fetch url) := by
  constructor
  · intro hbad
    rw [fetch_csv_year, treasury_url, if_pos hbad]
  · intro h1 h2
    have hcond : ¬(year < MIN_YEAR_AVAIL ∨ year > current_year) := by
      push_neg
      exact ⟨h1, h2⟩
    refine ⟨_, by rw [treasury_url, if_neg hcond], ?_⟩
    rw [fetch_csv_year, treasury_url, if_neg hcond]

/-- C8 witness: requesting year 1985 with the clock at 2026 fails with
`InvalidYear(1985)` under an arbitrary fetch oracle, and year 2000 passes
the check. -/
theorem fetch_csv_year_invalid_year_spec_witness :
    fetch_csv_year 2026 (fun _ => .ok "") 1985 =
      .error (.InvalidYear 1985) ∧
    ∃ url, treasury_url 2026 2000 = .ok url ∧
      fetch_csv_year 2026 (fun _ => .ok "") 2000 = (fun _ => Except.ok "") url :=
  ⟨(fetch_csv_year_invalid_year_spec 2026 1985 (fun _ => .ok "")).1
      (by decide),
   (fetch_csv_year_invalid_year_spec 2026 2000 (fun _ => .ok "")).2
      (by decide) (by decide)⟩

/-! ## Helper lemmas about date resolution -/

lemma pairwise_gt_getElem {dates : List Int}
    (hp : dates.Pairwise (fun a b => a > b)) {i j : Nat} (hij : i < j)
    {di dj : Int} (hdi : dates[i]? = some di) (hdj : dates[j]? = some dj) :
    dj < di := by
  obtain ⟨hi', hdi'⟩ := List.getElem?_eq_some_iff.mp hdi
  obtain ⟨hj', hdj'⟩ := List.getElem?_eq_some_iff.mp hdj
  subst hdi'
  subst hdj'
  exact List.pairwise_iff_getElem.mp hp i j hi' hj' hij

lemma head_is_max {dates : List Int}
    (hp : dates.Pairwise (fun a b => a > b)) {f : Int}
    (hf : dates[0]? = some f) : ∀ d ∈ dates, d ≤ f := by
  intro d hd
  obtain ⟨j, hj⟩ := List.mem_iff_getElem?.mp hd
  rcases Nat.eq_zero_or_pos j with rfl|hjpos
  · rw [hf] at hj
    injection hj with hj
    omega
  · exact le_of_lt (pairwise_gt_getElem hp hjpos hf hj)

lemma getLast_is_min {dates : List Int}
    (hp : dates.Pairwise (fun a b => a > b)) {l : Int}
    (hl : dates[dates.length - 1]? = some l) : ∀ d ∈ dates, l ≤ d := by
  intro d hd
  obtain ⟨j, hj⟩ := List.mem_iff_getElem?.mp hd
  have hjlen : j < dates.length := (List.getElem?_eq_some_iff.mp hj).1
  rcases Nat.lt_or_ge j (dates.length - 1) with h'|h'
  · exact le_of_lt (pairwise_gt_getElem hp h' hj hl)
  · have : j = dates.length - 1 := by omega
    subst this
    rw [hl] at hj
    injection hj with hj
    omega

lemma closest_loop_spec (dates : List Int) (r : Int)
    (_hp : dates.Pairwise (fun a b => a > b)) :
    ∀ (fuel index : Nat),
      dates.length ≤ index + 1 + fuel →
      (∀ j d, j ≤ index → dates[j]? = some d → r < d) →
      (∃ k d, index < k ∧ dates[k]? = some d ∧ d ≤ r) →
      ∃ i d, closest_loop dates r index fuel = some i ∧ index < i ∧
        dates[i]? = some d ∧ d ≤ r ∧
        (∀ j e, j < i → dates[j]? = some e → r < e) := by
  intro fuel
  induction fuel with
  | zero =>
    intro index hfuel _ hex
    obtain ⟨k, d, hik, hk, _⟩ := hex
    have := (List.getElem?_eq_some_iff.mp hk).1
    omega
  | succ fuel ih =>
    intro index hfuel habove hex
    obtain ⟨k, dk, hik, hk, hdk⟩ := hex
    have hklen : k < dates.length := (List.getElem?_eq_some_iff.mp hk).1
    have hlt : index + 1 < dates.length := by omega
    have hd1 : dates[index + 1]? = some dates[index + 1] :=
      List.getElem?_eq_getElem hlt
    by_cases hle : dates[index + 1] ≤ r
    · refine ⟨index + 1, dates[index + 1], ?_, Nat.lt_succ_self index, hd1,
        hle, fun j e hj he => habove j e (Nat.lt_succ_iff.mp hj) he⟩
      rw [closest_loop, hd1]
      simp [hle]
    · push_neg at hle
      have habove' : ∀ j d, j ≤ index + 1 → dates[j]? = some d → r < d := by
        intro j d hj hd
        rcases Nat.lt_or_ge j (index + 1) with h'|h'
        · exact habove j d (Nat.lt_succ_iff.mp h') hd
        · have hje : j = index + 1 := by omega
          subst hje
          rw [hd1] at hd
          injection hd with hd
          omega
      have hex' : ∃ k d, index + 1 < k ∧ dates[k]? = some d ∧ d ≤ r := by
        refine ⟨k, dk, ?_, hk, hdk⟩
        rcases Nat.lt_or_ge (index + 1) k with h'|h'
        · exact h'
        · exfalso
          have hke : k = index + 1 := by omega
          subst hke
          rw [hd1] at hk
          injection hk with hk
          omega
      obtain ⟨i, d, hloop, hii, hdi, hdr, hmax⟩ :=
        ih (index + 1) (by omega) habove' hex'
      refine ⟨i, d, ?_, by omega, hdi, hdr, hmax⟩
      rw [closest_loop, hd1]
      simp only [if_neg (not_le.mpr hle)]
      exact hloop

lemma closest_date_spec (h : TreasuryCurveHistory) (r : Int)
    (hp : h.dates.Pairwise (fun a b => a > b)) {first lastd : Int}
    (hfirst : h.dates.head? = some first)
    (hlast : h.dates.getLast? = some lastd) (hge : lastd ≤ r) :
    ∃ i d, closest_date h r = some i ∧ h.dates[i]? = some d ∧ d ≤ r ∧
      i < h.dates.length ∧ (∀ d' ∈ h.dates, d' ≤ r → d' ≤ d) := by
  have hf0 : h.dates[0]? = some first := by
    rw [← List.head?_eq_getElem?]
    exact hfirst
  have hlN : h.dates[h.dates.length - 1]? = some lastd := by
    rw [← List.getLast?_eq_getElem?]
    exact hlast
  have hlen0 : 0 < h.dates.length := (List.getElem?_eq_some_iff.mp hf0).1.trans_le (by omega)
  simp only [closest_date, hfirst, hlast]
  by_cases h1 : r ≥ first
  · rw [if_pos h1]
    exact ⟨0, first, rfl, hf0, h1, hlen0, fun d hd _ => head_is_max hp hf0 d hd⟩
  · rw [if_neg h1]
    push_neg at h1
    by_cases h2 : r ≤ lastd
    · rw [if_pos h2]
      have hrl : r = lastd := le_antisymm h2 hge
      refine ⟨_, lastd, rfl, hlN, by omega, by omega, ?_⟩
      intro d' hd' _
      have := getLast_is_min hp hlN d' hd'
      omega
    · rw [if_neg h2]
      push_neg at h2
      have hlen2 : 1 < h.dates.length := by
        rcases Nat.lt_or_ge 1 h.dates.length with hl2|hl2
        · exact hl2
        · exfalso
          have hlen1 : h.dates.length = 1 := by omega
          rw [hlen1] at hlN
          simp only [Nat.sub_self] at hlN
          rw [hf0] at hlN
          injection hlN with hlN
          omega
      have hex : ∃ k d, 0 < k ∧ h.dates[k]? = some d ∧ d ≤ r :=
        ⟨h.dates.length - 1, lastd, by omega, hlN, le_of_lt h2⟩
      have habove : ∀ j d, j ≤ 0 → h.dates[j]? = some d → r < d := by
        intro j d hj hd
        have hj0 : j = 0 := by omega
        subst hj0
        rw [hf0] at hd
        injection hd with hd
        omega
      obtain ⟨i, d, hloop, _, hdi, hdr, hmax⟩ :=
        closest_loop_spec h.dates r hp h.dates.length 0 (by omega) habove hex
      refine ⟨i, d, hloop, hdi, hdr, (List.getElem?_eq_some_iff.mp hdi).1, ?_⟩
      intro d' hd' hled
      obtain ⟨j, hj⟩ := List.mem_iff_getElem?.mp hd'
      rcases Nat.lt_trichotomy j i with h'|h'|h'
      · exact absurd hled (not_le.mpr (hmax j d' h' hj))
      · subst h'
        rw [hdi] at hj
        injection hj with hj
        omega
      · exact le_of_lt (pairwise_gt_getElem hp h' hdi hj)

lemma from_date_ok_spec (h : TreasuryCurveHistory) (r : Int)
    (hp : h.dates.Pairwise (fun a b => a > b))
    (hlen : h.curves.length = h.dates.length) {first lastd : Int}
    (hfirst : h.dates.head? = some first)
    (hlast : h.dates.getLast? = some lastd)
    (h1 : lastd ≤ r) (h2 : r ≤ first + MAX_FORWARD_DAYS) :
    ∃ i d c, closest_date h r = some i ∧ i < h.dates.length ∧
      i < h.curves.length ∧ h.dates[i]? = some d ∧ h.curves[i]? = some c ∧
      from_date h r = .ok (d, c) ∧ d ≤ r ∧
      (∀ d' ∈ h.dates, d' ≤ r → d' ≤ d) := by
  obtain ⟨i, d, hcl, hdi, hdr, hilen, hmax⟩ :=
    closest_date_spec h r hp hfirst hlast h1
  have hic : i < h.curves.length := by omega
  have hc : h.curves[i]? = some h.curves[i] := List.getElem?_eq_getElem hic
  refine ⟨i, d, h.curves[i], hcl, hilen, hic, hdi, hc, ?_, hdr, hmax⟩
  simp only [from_date, hlast, hfirst]
  rw [if_neg (by push_neg; exact ⟨h1, h2⟩)]
  simp only [hcl, hdi, hc]

/-- C1: for a history with non-empty strictly descending dates (and paired
curves), `from_date` returns `OutsideDateRange` exactly when the request is
later than the newest date plus 5 days or earlier than the oldest date, and
in every other case returns a pair drawn from the history. -/
theorem from_date_outside_range_iff (h : TreasuryCurveHistory) (r : Int)
    (hp : h.dates.Pairwise (fun a b => a > b))
    (hlen : h.curves.length = h.dates.length) {first lastd : Int}
    (hfirst : h.dates.head? = some first)
    (hlast : h.dates.getLast? = some lastd) :
    (from_date h r = .err (.OutsideDateRange (toString r)) ↔
      (r > first + MAX_FORWARD_DAYS ∨ r < lastd)) ∧
    (¬(r > first + MAX_FORWARD_DAYS ∨ r < lastd) →
      ∃ p, from_date h r = .ok p ∧ p ∈ h.dates.zip h.curves) := by
  have hin : ∀ hcon : ¬(r > first + MAX_FORWARD_DAYS ∨ r < lastd),
      ∃ p, from_date h r = .ok p ∧ p ∈ h.dates.zip h.curves := by
    intro hcon
    push_neg at hcon
    obtain ⟨i, d, c, _, hilen, hic, hdi, hc, hok, _, _⟩ :=
      from_date_ok_spec h r hp hlen hfirst hlast hcon.2 hcon.1
    refine ⟨(d, c), hok, ?_⟩
    have hiz : i < (h.dates.zip h.curves).length := by
      rw [List.length_zip]
      omega
    refine List.mem_iff_getElem?.mpr ⟨i, ?_⟩
    rw [List.getElem?_eq_some_iff]
    refine ⟨hiz, ?_⟩
    rw [List.getElem_zip]
    obtain ⟨_, hd'⟩ := List.getElem?_eq_some_iff.mp hdi
    obtain ⟨_, hc'⟩ := List.getElem?_eq_some_iff.mp hc
    rw [hd', hc']
  refine ⟨⟨fun herr => ?_, fun hout => ?_⟩, hin⟩
  · by_contra hcon
    obtain ⟨p, hok, _⟩ := hin hcon
    rw [hok] at herr
    exact RResult.noConfusion herr
  · simp only [from_date, hlast, hfirst]
    rw [if_pos (Or.symm hout)]

/-- C1 witness: a concrete two-entry history and a request below the oldest
date: the range check rejects it with `OutsideDateRange`. -/
theorem from_date_outside_range_iff_witness :
    ((from_date ⟨[[some ⟨50, 1⟩], [none]], [19545, 19544]⟩ 19540 =
        .err (.OutsideDateRange (toString (19540 : Int))) ↔
      ((19540 : Int) > 19545 + MAX_FORWARD_DAYS ∨ (19540 : Int) < 19544)) ∧
     (¬((19540 : Int) > 19545 + MAX_FORWARD_DAYS ∨ (19540 : Int) < 19544) →
      ∃ p, from_date ⟨[[some ⟨50, 1⟩], [none]], [19545, 19544]⟩ 19540 =
          .ok p ∧
        p ∈ List.zip [19545, 19544] [[some ⟨50, 1⟩], [none]])) :=
  from_date_outside_range_iff ⟨[[some ⟨50, 1⟩], [none]], [19545, 19544]⟩
    19540 (by decide) (by decide) rfl rfl

/-- C2: inside the accepted range, `from_date` returns the most recent
entry whose date is at or before the request: the returned date never
exceeds the request, it is the maximum of the dates at or before it, an
exactly matching date is returned as such, and a request past the newest
date (the grace window) resolves to the newest entry. -/
theorem from_date_most_recent (h : TreasuryCurveHistory) (r : Int)
    (hp : h.dates.Pairwise (fun a b => a > b))
    (hlen : h.curves.length = h.dates.length) {first lastd : Int}
    (hfirst : h.dates.head? = some first)
    (hlast : h.dates.getLast? = some lastd)
    (h1 : lastd ≤ r) (h2 : r ≤ first + MAX_FORWARD_DAYS) :
    ∃ (i : Nat) (d : Int) (c : TreasuryCurve),
      h.dates[i]? = some d ∧ h.curves[i]? = some c ∧
      from_date h r = .ok (d, c) ∧ d ≤ r ∧
      (∀ d' ∈ h.dates, d' ≤ r → d' ≤ d) ∧
      (r ∈ h.dates → d = r) ∧ (first < r → d = first) := by
  obtain ⟨i, d, c, _, hilen, hic, hdi, hc, hok, hdr, hmax⟩ :=
    from_date_ok_spec h r hp hlen hfirst hlast h1 h2
  have hf0 : h.dates[0]? = some first := by
    rw [← List.head?_eq_getElem?]
    exact hfirst
  refine ⟨i, d, c, hdi, hc, hok, hdr, hmax, fun hrmem => ?_, fun hfr => ?_⟩
  · exact le_antisymm hdr (hmax r hrmem le_rfl)
  · have hfmem : first ∈ h.dates := List.mem_iff_getElem?.mpr ⟨0, hf0⟩
    have hfd : first ≤ d := hmax first hfmem (le_of_lt hfr)
    have hdf : d ≤ first :=
      head_is_max hp hf0 d (List.mem_iff_getElem?.mpr ⟨i, hdi⟩)
    omega

/-- C2 witness: a request in the 5-day grace window past the newest date of
a concrete history resolves to the newest entry. -/
theorem from_date_most_recent_witness :
    ∃ (i : Nat) (d : Int) (c : TreasuryCurve),
      ([19545, 19544] : List Int)[i]? = some d ∧
      ([[some ⟨50, 1⟩], [none]] : List TreasuryCurve)[i]? = some c ∧
      from_date ⟨[[some ⟨50, 1⟩], [none]], [19545, 19544]⟩ 19550 =
        .ok (d, c) ∧ d ≤ 19550 ∧
      (∀ d' ∈ ([19545, 19544] : List Int), d' ≤ 19550 → d' ≤ d) ∧
      ((19550 : Int) ∈ ([19545, 19544] : List Int) → d = 19550) ∧
      ((19545 : Int) < 19550 → d = 19545) :=
  from_date_most_recent ⟨[[some ⟨50, 1⟩], [none]], [19545, 19544]⟩ 19550
    (by decide) (by decide) rfl rfl (by decide) (by decide)

/-- C10: inside the accepted range, `closest_date` terminates with an index
in bounds for both vectors, so `from_date`'s success branch performs no
out-of-bounds access: it returns a value (never the panic outcome). -/
theorem from_date_no_oob (h : TreasuryCurveHistory) (r : Int)
    (hp : h.dates.Pairwise (fun a b => a > b))
    (hlen : h.curves.length = h.dates.length) {first lastd : Int}
    (hfirst : h.dates.head? = some first)
    (hlast : h.dates.getLast? = some lastd)
    (h1 : lastd ≤ r) (h2 : r ≤ first + MAX_FORWARD_DAYS) :
    ∃ i, closest_date h r = some i ∧ i < h.dates.length ∧
      i < h.curves.length ∧ ∃ p, from_date h r = .ok p := by
  obtain ⟨i, d, c, hcl, hilen, hic, _, _, hok, _, _⟩ :=
    from_date_ok_spec h r hp hlen hfirst hlast h1 h2
  exact ⟨i, hcl, hilen, hic, (d, c), hok⟩

/-- C10 witness: concrete in-range request on a three-entry history. -/
theorem from_date_no_oob_witness :
    ∃ i, closest_date ⟨[[none], [none], [none]], [19545, 19544, 19540]⟩
        19542 = some i ∧
      i < ([19545, 19544, 19540] : List Int).length ∧
      i < ([[none], [none], [none]] : List TreasuryCurve).length ∧
      ∃ p, from_date ⟨[[none], [none], [none]], [19545, 19544, 19540]⟩
          19542 = .ok p :=
  from_date_no_oob ⟨[[none], [none], [none]], [19545, 19544, 19540]⟩ 19542
    (by decide) (by decide) rfl rfl (by decide) (by decide)

/-! ## Helper lemmas about row decoding (`load_curve`) -/

/-- Number of set bits of `flags` among the `k` positions starting at `i`. -/
def bitsCount (flags : Nat) (i k : Nat) : Nat :=
  ((List.range' i k).filter (fun j => flags.testBit j)).length

/-- Specification of the absence-insertion loop of `load_curve`: walk `k`
canonical positions starting at `i`; an unset bit contributes an explicit
absence, a set bit consumes the next pending value. -/
def maskMerge (flags : Nat) :
    Nat → Nat → List (Option Decimal) → List (Option Decimal)
  | _, 0, rest => rest
  | i, k + 1, rest =>
    if flags.testBit i then
      rest.headD none :: maskMerge flags (i + 1) k rest.tail
    else none :: maskMerge flags (i + 1) k rest

lemma insertIdx_append_self {α : Type} (pre rest : List α) (a : α) :
    (pre ++ rest).insertIdx pre.length a = pre ++ a :: rest := by
  induction pre with
  | nil => rfl
  | cons x pre ih => simpa using ih

lemma bitsCount_succ (flags i k : Nat) :
    bitsCount flags i (k + 1) =
      (if flags.testBit i then 1 else 0) + bitsCount flags (i + 1) k := by
  rw [bitsCount, List.range'_succ, List.filter_cons]
  by_cases hb : flags.testBit i
  · simp only [hb, if_pos, List.length_cons, bitsCount]
    omega
  · simp [hb, bitsCount]

lemma foldl_insert_eq_maskMerge (flags : Nat) :
    ∀ (k i : Nat) (pre rest : List (Option Decimal)),
      pre.length = i → rest.length = bitsCount flags i k →
      (List.range' i k).foldl
          (fun d j => if flags.testBit j then d else d.insertIdx j none)
          (pre ++ rest) =
        pre ++ maskMerge flags i k rest := by
  intro k
  induction k with
  | zero =>
    intro i pre rest _ _
    rfl
  | succ k ih =>
    intro i pre rest hpre hrest
    rw [bitsCount_succ] at hrest
    rw [List.range'_succ, List.foldl_cons]
    by_cases hb : flags.testBit i
    · rw [if_pos hb] at hrest
      cases rest with
      | nil =>
        simp only [List.length_nil] at hrest
        omega
      | cons v rest' =>
        have hrest' : rest'.length = bitsCount flags (i + 1) k := by
          simp only [List.length_cons] at hrest
          omega
        have hpre' : (pre ++ [v]).length = i + 1 := by simp [hpre]
        simp only [if_pos hb]
        calc (List.range' (i + 1) k).foldl
              (fun d j => if flags.testBit j then d else d.insertIdx j none)
              (pre ++ v :: rest')
            = (List.range' (i + 1) k).foldl
              (fun d j => if flags.testBit j then d else d.insertIdx j none)
              ((pre ++ [v]) ++ rest') := by simp
          _ = (pre ++ [v]) ++ maskMerge flags (i + 1) k rest' :=
              ih (i + 1) (pre ++ [v]) rest' hpre' hrest'
          _ = pre ++ maskMerge flags i (k + 1) (v :: rest') := by
              simp [maskMerge, hb]
    · rw [if_neg hb] at hrest
      simp only [if_neg hb]
      rw [← hpre, insertIdx_append_self]
      rw [hpre]
      have h2 : pre ++ (none : Option Decimal) :: rest =
          (pre ++ [none]) ++ rest := by simp
      rw [h2, ih (i + 1) (pre ++ [none]) rest (by simp [hpre]) (by omega)]
      simp [maskMerge, hb]

lemma maskMerge_length (flags : Nat) :
    ∀ (k i : Nat) (rest : List (Option Decimal)),
      rest.length = bitsCount flags i k →
      (maskMerge flags i k rest).length = k := by
  intro k
  induction k with
  | zero =>
    intro i rest hrest
    simp only [maskMerge]
    simpa [bitsCount] using hrest
  | succ k ih =>
    intro i rest hrest
    rw [bitsCount_succ] at hrest
    by_cases hb : flags.testBit i
    · rw [if_pos hb] at hrest
      cases rest with
      | nil =>
        simp only [List.length_nil] at hrest
        omega
      | cons v rest' =>
        simp only [maskMerge, if_pos hb, List.headD_cons, List.tail_cons,
          List.length_cons]
        rw [ih (i + 1) rest' (by simp only [List.length_cons] at hrest; omega)]
    · rw [if_neg hb] at hrest
      simp only [maskMerge, if_neg hb, List.length_cons]
      rw [ih (i + 1) rest (by omega)]

lemma maskMerge_getElem? (flags : Nat) :
    ∀ (k i : Nat) (rest : List (Option Decimal)),
      rest.length = bitsCount flags i k →
      (∀ x ∈ rest, x.isSome) →
      ∀ j, j < k →
        ((maskMerge flags i k rest)[j]? = some none ↔
          flags.testBit (i + j) = false) := by
  intro k
  induction k with
  | zero =>
    intro i rest _ _ j hj
    omega
  | succ k ih =>
    intro i rest hrest hsome j hj
    rw [bitsCount_succ] at hrest
    by_cases hb : flags.testBit i
    · rw [if_pos hb] at hrest
      cases rest with
      | nil =>
        simp only [List.length_nil] at hrest
        omega
      | cons v rest' =>
        have hrest' : rest'.length = bitsCount flags (i + 1) k := by
          simp only [List.length_cons] at hrest
          omega
        simp only [maskMerge, if_pos hb, List.headD_cons, List.tail_cons]
        cases j with
        | zero =>
          simp only [List.getElem?_cons_zero, Nat.add_zero, hb]
          have hv : v.isSome := hsome v (List.mem_cons_self _ _)
          constructor
          · intro hvn
            injection hvn with hvn
            rw [hvn] at hv
            simp at hv
          · intro hfalse
            simp at hfalse
        | succ j =>
          simp only [List.getElem?_cons_succ]
          rw [ih (i + 1) rest' hrest'
            (fun x hx => hsome x (List.mem_cons_of_mem _ hx)) j (by omega)]
          have hadd : i + 1 + j = i + (j + 1) := by omega
          rw [hadd]
    · rw [if_neg hb] at hrest
      simp only [maskMerge, if_neg hb]
      cases j with
      | zero =>
        simp only [List.getElem?_cons_zero, Nat.add_zero]
        simp [hb]
      | succ j =>
        simp only [List.getElem?_cons_succ]
        rw [ih (i + 1) rest (by omega) hsome j (by omega)]
        have hadd : i + 1 + j = i + (j + 1) := by omega
        rw [hadd]

lemma maskMerge_filterMap (flags : Nat) :
    ∀ (k i : Nat) (rest : List (Option Decimal)),
      rest.length = bitsCount flags i k →
      (maskMerge flags i k rest).filterMap id = rest.filterMap id := by
  intro k
  induction k with
  | zero =>
    intro i rest _
    rfl
  | succ k ih =>
    intro i rest hrest
    rw [bitsCount_succ] at hrest
    by_cases hb : flags.testBit i
    · rw [if_pos hb] at hrest
      cases rest with
      | nil =>
        simp only [List.length_nil] at hrest
        omega
      | cons v rest' =>
        simp only [maskMerge, if_pos hb, List.headD_cons, List.tail_cons,
          List.filterMap_cons]
        rw [ih (i + 1) rest' (by simp only [List.length_cons] at hrest; omega)]
    · rw [if_neg hb] at hrest
      simp only [maskMerge, if_neg hb, List.filterMap_cons]
      exact ih (i + 1) rest (by omega)

lemma all_isSome_eq_map_some {α : Type} :
    ∀ {l : List (Option α)}, (∀ x ∈ l, x.isSome) →
      l = (l.filterMap id).map some := by
  intro l
  induction l with
  | nil =>
    intro _
    rfl
  | cons x t ih =>
    intro hall
    have hx : x.isSome := hall x (List.mem_cons_self _ _)
    cases x with
    | none => simp at hx
    | some a =>
      simp only [List.filterMap_cons, id, List.map_cons]
      rw [← ih (fun y hy => hall y (List.mem_cons_of_mem _ hy))]

lemma sequenceOptions_eq_some {α : Type} :
    ∀ {l : List (Option α)} {v : List α},
      sequenceOptions l = some v ↔ l = v.map some := by
  intro l
  induction l with
  | nil =>
    intro v
    constructor
    · intro hv
      injection hv with hv
      rw [← hv]
      rfl
    · intro hv
      cases v with
      | nil => rfl
      | cons a w => simp at hv
  | cons x t ih =>
    intro v
    cases x with
    | none =>
      constructor
      · intro hv
        exact absurd hv (by rw [sequenceOptions]; simp)
      · intro hv
        cases v with
        | nil => simp at hv
        | cons a w => simp at hv
    | some a =>
      rw [sequenceOptions]
      constructor
      · intro hv
        rw [Option.map_eq_some'] at hv
        obtain ⟨w, hw, hvw⟩ := hv
        rw [← hvw, List.map_cons]
        rw [ih.mp hw]
      · intro hv
        cases v with
        | nil => simp at hv
        | cons b w =>
          simp only [List.map_cons, List.cons.injEq] at hv
          obtain ⟨hab, htw⟩ := hv
          injection hab with hab
          rw [ih.mpr htw]
          simp [hab]

lemma count_ones_eq_bitsCount {flags : Nat} (hf : flags < 2 ^ 13) :
    count_ones flags = bitsCount flags 0 13 := by
  have hhigh : ∀ j, 13 ≤ j → flags.testBit j = false := by
    intro j hj
    exact Nat.testBit_lt_two_pow
      (lt_of_lt_of_le hf (Nat.pow_le_pow_right (by omega) hj))
  have hsplit : List.range 16 = List.range' 0 13 ++ [13, 14, 15] := by decide
  rw [count_ones, hsplit, List.filter_append]
  have hnil : List.filter (fun i => flags.testBit i) [13, 14, 15] = [] := by
    simp [List.filter_cons, hhigh 13 (by omega), hhigh 14 (by omega),
      hhigh 15 (by omega)]
  rw [hnil, List.append_nil, bitsCount]

/-- C4: when the mask is a 13-bit value whose population count equals the
number of post-date fields and every field parses, `load_curve` yields a
13-slot snapshot whose explicit absences sit exactly at the unset canonical
positions and whose present slots, read in canonical order, carry the
parsed field values in left-to-right order. -/
theorem load_curve_mask_spec (data : String) (flags : Nat)
    (hf : flags < 2 ^ 13)
    (hlen : ((splitChar ',' data).drop 1).length = count_ones flags)
    (hparse : ∀ f ∈ (splitChar ',' data).drop 1, (parseF64 f).isSome) :
    ∃ cv, load_curve data flags = some cv ∧ cv.length = CURVE_LENGTH ∧
      (∀ i, i < CURVE_LENGTH → (cv[i]? = some none ↔ flags.testBit i = false)) ∧
      ((splitChar ',' data).drop 1).map parseF64 = (cv.filterMap id).map some := by
  set fields := (splitChar ',' data).drop 1 with hfields
  set l := fields.map parseF64 with hl
  have hall : ∀ x ∈ l, x.isSome := by
    intro x hx
    rw [hl] at hx
    obtain ⟨f, hfmem, rfl⟩ := List.mem_map.mp hx
    exact hparse f hfmem
  set vals := l.filterMap id with hvals
  have hlmap : l = vals.map some := all_isSome_eq_map_some hall
  have hseq : sequenceOptions l = some vals := sequenceOptions_eq_some.mpr hlmap
  have hvlen : vals.length = count_ones flags := by
    have h1 : l.length = vals.length := by
      rw [hlmap, List.length_map]
    have h2 : l.length = fields.length := by
      rw [hl, List.length_map]
    omega
  have hcb : count_ones flags = bitsCount flags 0 13 := count_ones_eq_bitsCount hf
  rw [load_curve]
  rw [← hfields, ← hl, hseq]
  simp only []
  by_cases h13 : count_ones flags = 13
  · -- all 13 bits are set: the insertion loop is skipped
    have hallbits : ∀ j, j < 13 → flags.testBit j = true := by
      have hlen13 : ((List.range' 0 13).filter
          (fun j => flags.testBit j)).length = (List.range' 0 13).length := by
        rw [← bitsCount, ← hcb, h13]
        decide
      have := List.filter_length_eq_length.mp hlen13
      intro j hj
      exact this j (by simp [List.mem_range']; omega)
    have hcond : ¬(count_ones flags ≠ 13) := by omega
    rw [if_neg hcond]
    have hclen : (vals.map some).length = CURVE_LENGTH := by
      rw [List.length_map, hvlen, h13]
      rfl
    rw [if_pos hclen]
    refine ⟨vals.map some, rfl, hclen, fun i hi => ?_, ?_⟩
    · rw [List.getElem?_map]
      constructor
      · intro hmap
        rcases hv : vals[i]? with _|v
        · rw [hv] at hmap
          simp at hmap
        · rw [hv] at hmap
          simp at hmap
      · intro hbit
        rw [hallbits i hi] at hbit
        exact absurd hbit (by simp)
    · rw [hlmap]
      congr 1
      rw [List.filterMap_map]
      simp [Function.comp_def]
  · have hcond : count_ones flags ≠ 13 := h13
    rw [if_pos hcond]
    have hrest : (vals.map some).length = bitsCount flags 0 13 := by
      rw [List.length_map, hvlen, hcb]
    have hfold := foldl_insert_eq_maskMerge flags 13 0 [] (vals.map some)
      rfl hrest
    simp only [List.nil_append] at hfold
    have hrange : List.range CURVE_LENGTH = List.range' 0 13 :=
      List.range_eq_range' 13
    rw [hrange, hfold]
    have hmlen : (maskMerge flags 0 13 (vals.map some)).length = 13 :=
      maskMerge_length flags 13 0 (vals.map some) hrest
    have hmlenC : (maskMerge flags 0 13 (vals.map some)).length =
        CURVE_LENGTH := hmlen
    rw [if_pos hmlenC]
    refine ⟨maskMerge flags 0 13 (vals.map some), rfl, hmlen, fun i hi => ?_, ?_⟩
    · have := maskMerge_getElem? flags 13 0 (vals.map some) hrest
        (by intro x hx; obtain ⟨v, _, rfl⟩ := List.mem_map.mp hx; rfl) i hi
      simpa using this
    · rw [maskMerge_filterMap flags 13 0 (vals.map some) hrest]
      rw [hlmap]
      congr 1
      rw [List.filterMap_map]
      simp [Function.comp_def]

/-- C4 witness: two fields and the mask with bits 0 and 2 set decode to
values at canonical slots 0 and 2 with absences elsewhere. -/
theorem load_curve_mask_spec_witness :
    ∃ cv, load_curve "07/07/2023,5.32,5.47" 5 = some cv ∧
      cv.length = CURVE_LENGTH ∧
      (∀ i, i < CURVE_LENGTH → (cv[i]? = some none ↔ (5 : Nat).testBit i = false)) ∧
      ((splitChar ',' "07/07/2023,5.32,5.47").drop 1).map parseF64 =
        (cv.filterMap id).map some :=
  load_curve_mask_spec "07/07/2023,5.32,5.47" 5 (by decide) (by decide)
    (by decide)

/-! ## Helper lemmas about the history builder -/

/-- Full decode of one data row against a mask: its date and its curve;
`none` when either half panics. -/
def decodeRow (flags : Nat) (row : String) : Option (Int × TreasuryCurve) :=
  match load_date row, load_curve row flags with
  | some d, some cv => some (d, cv)
  | _, _ => none

lemma zip_decode (flags : Nat) :
    ∀ (rows : List String) (curves : List TreasuryCurve) (dates : List Int),
      rows.map (fun l => load_curve l flags) = curves.map some →
      rows.map load_date = dates.map some →
      dates.zip curves = rows.filterMap (decodeRow flags) := by
  intro rows
  induction rows with
  | nil =>
    intro curves dates hc hd
    cases curves with
    | nil =>
      cases dates with
      | nil => rfl
      | cons d dates' => simp at hd
    | cons cv cs => simp at hc
  | cons row rows ih =>
    intro curves dates hc hd
    cases curves with
    | nil => simp at hc
    | cons cv curves' =>
      cases dates with
      | nil => simp at hd
      | cons d dates' =>
        simp only [List.map_cons, List.cons.injEq] at hc hd
        obtain ⟨hc1, hc2⟩ := hc
        obtain ⟨hd1, hd2⟩ := hd
        rw [List.zip_cons_cons, List.filterMap_cons]
        simp only [decodeRow, hd1, hc1]
        rw [ih curves' dates' hc2 hd2]

lemma sort_arrays_desc_spec {α : Type} (primary : List Int)
    (secondary : List α) :
    (sort_arrays primary secondary false).1.Pairwise (fun a b => a ≥ b) ∧
    (sort_arrays primary secondary false).1.length =
      (sort_arrays primary secondary false).2.length ∧
    ((sort_arrays primary secondary false).1.zip
      (sort_arrays primary secondary false).2).Perm (primary.zip secondary) := by
  haveI htot : IsTotal (Int × α) (fun a b => b.1 ≤ a.1) :=
    ⟨fun a b => le_total b.1 a.1⟩
  haveI htrans : IsTrans (Int × α) (fun a b => b.1 ≤ a.1) :=
    ⟨fun _ _ _ hab hbc => le_trans hbc hab⟩
  have hsorted := List.sorted_insertionSort (fun (a b : Int × α) => b.1 ≤ a.1)
    (primary.zip secondary)
  have hperm := List.perm_insertionSort (fun (a b : Int × α) => b.1 ≤ a.1)
    (primary.zip secondary)
  refine ⟨?_, ?_, ?_⟩
  · simp only [sort_arrays, if_neg (Bool.false_ne_true)]
    exact List.Pairwise.map Prod.fst (fun a b hab => hab) hsorted
  · simp only [sort_arrays, if_neg (Bool.false_ne_true), List.length_map]
  · simp only [sort_arrays, if_neg (Bool.false_ne_true)]
    rw [List.zip_map']
    simpa using hperm

lemma tryFromLines_ok (lines : List String) (h : TreasuryCurveHistory)
    (hok : tryFromLines lines = .ok h) :
    ∃ flags curves dates,
      active_flags (splitChar ',' (removeChar '\"' (lines.headD ""))) =
        .ok flags ∧
      sequenceOptions ((lines.drop 1).map (fun l => load_curve l flags)) =
        some curves ∧
      sequenceOptions ((lines.drop 1).map load_date) = some dates ∧
      h.dates = (sort_arrays dates curves false).1 ∧
      h.curves = (sort_arrays dates curves false).2 := by
  rw [tryFromLines] at hok
  split at hok
  · exact absurd hok (by simp)
  · rename_i flags haf
    split at hok
    · rename_i curves dates hsc hsd
      injection hok with hok
      refine ⟨flags, curves, dates, haf, hsc, hsd, ?_, ?_⟩
      · rw [← hok]
      · rw [← hok]
    · exact absurd hok (by simp)

/-- C6 evidence: a malformed numeric field and a malformed date field each
abort the whole build with a panic (the model's `panicked` outcome), not a
recoverable error value. -/
theorem tryFrom_malformed_input_panics :
    tryFrom "Date,1 Mo\n07/07/2023,abc" = .panicked ∧
    tryFrom "Date,1 Mo\nbad-date,5.0" = .panicked :=
  ⟨by decide, by decide⟩

/-- C5 counterexample: a header-only CSV builds `Ok` with an empty history
(violating the claimed non-emptiness / all-error-fails-construction), and a
CSV with a duplicated date builds `Ok` with equal adjacent dates (violating
the claimed strict descent). -/
theorem tryFrom_empty_and_duplicate_counterexample :
    tryFrom "Date" = .ok ⟨[], []⟩ ∧
    tryFrom "Date,1 Mo\n07/07/2023,5.0\n07/07/2023,5.0" =
      .ok ⟨[some ⟨50, 1⟩ :: List.replicate 12 none,
            some ⟨50, 1⟩ :: List.replicate 12 none], [19545, 19545]⟩ :=
  ⟨by decide, by decide⟩

/-- C5 (amended): every history built successfully has its dates sorted in
non-increasing order (equal adjacent dates are possible when the input has
duplicate dates) and date and curve vectors of equal length; the vectors may
be empty (a header-only input builds an empty history rather than failing). -/
theorem tryFrom_ok_invariants (csv : String) (h : TreasuryCurveHistory)
    (hok : tryFrom csv = .ok h) :
    h.dates.Pairwise (fun a b => a ≥ b) ∧
    h.dates.length = h.curves.length := by
  rw [tryFrom] at hok
  obtain ⟨flags, curves, dates, _, _, _, hd, hc⟩ :=
    tryFromLines_ok _ h hok
  obtain ⟨hpair, hlen, _⟩ := sort_arrays_desc_spec dates curves
  rw [hd, hc]
  exact ⟨hpair, hlen⟩

/-- C5 witness: the amended invariants at a concrete two-row CSV. -/
theorem tryFrom_ok_invariants_witness :
    ([19545, 19544] : List Int).Pairwise (fun a b => a ≥ b) ∧
    ([19545, 19544] : List Int).length =
      ([some ⟨50, 1⟩ :: List.replicate 12 none,
        some ⟨49, 1⟩ :: List.replicate 12 none] :
          List TreasuryCurve).length :=
  tryFrom_ok_invariants "Date,1 Mo\n07/07/2023,5.0\n07/06/2023,4.9"
    ⟨[some ⟨50, 1⟩ :: List.replicate 12 none,
      some ⟨49, 1⟩ :: List.replicate 12 none], [19545, 19544]⟩ (by decide)

/-- C7: when every data row decodes and the decoded dates are pairwise
distinct, building from any permutation of the rows succeeds and `latest()`
returns the (date, curve) pair of the chronologically most recent source
row: the returned pair is a decoded row, its date bounds every decoded
date, and any source row carrying that date carries that curve.  Moreover
the sort is a paired reordering: the zipped (dates, curves) of the built
history is a permutation of the decoded row pairs, ordered descending. -/
theorem tryFrom_latest_most_recent (header : String)
    (rows rows' : List String) (flags : Nat)
    (hflags : active_flags (splitChar ',' (removeChar '\"' header)) =
      .ok flags)
    (hperm : rows.Perm rows') (hne : rows ≠ [])
    (hcur : ∀ row ∈ rows, (load_curve row flags).isSome)
    (hdat : ∀ row ∈ rows, (load_date row).isSome)
    (hdist : ((rows.filterMap (decodeRow flags)).map Prod.fst).Nodup) :
    ∃ h dmax cmax,
      tryFromLines (header :: rows') = .ok h ∧
      latest h = some (dmax, cmax) ∧
      (dmax, cmax) ∈ rows.filterMap (decodeRow flags) ∧
      (∀ p ∈ rows.filterMap (decodeRow flags), p.1 ≤ dmax) ∧
      (∀ row ∈ rows, ∀ cv, load_date row = some dmax →
        load_curve row flags = some cv → cv = cmax) ∧
      (h.dates.zip h.curves).Perm (rows.filterMap (decodeRow flags)) ∧
      h.dates.Pairwise (fun a b => a ≥ b) := by
  have hcur' : ∀ row ∈ rows', (load_curve row flags).isSome :=
    fun row hr => hcur row (hperm.mem_iff.mpr hr)
  have hdat' : ∀ row ∈ rows', (load_date row).isSome :=
    fun row hr => hdat row (hperm.mem_iff.mpr hr)
  have hallc : ∀ x ∈ rows'.map (fun l => load_curve l flags), x.isSome := by
    intro x hx
    obtain ⟨row, hr, rfl⟩ := List.mem_map.mp hx
    exact hcur' row hr
  have halld : ∀ x ∈ rows'.map load_date, x.isSome := by
    intro x hx
    obtain ⟨row, hr, rfl⟩ := List.mem_map.mp hx
    exact hdat' row hr
  set curves := (rows'.map (fun l => load_curve l flags)).filterMap id
    with hcurves
  set dates := (rows'.map load_date).filterMap id with hdates
  have hlceq : rows'.map (fun l => load_curve l flags) = curves.map some :=
    all_isSome_eq_map_some hallc
  have hldeq : rows'.map load_date = dates.map some :=
    all_isSome_eq_map_some halld
  have hseqc : sequenceOptions (rows'.map (fun l => load_curve l flags)) =
      some curves := sequenceOptions_eq_some.mpr hlceq
  have hseqd : sequenceOptions (rows'.map load_date) = some dates :=
    sequenceOptions_eq_some.mpr hldeq
  have hbuild : tryFromLines (header :: rows') =
      .ok ⟨(sort_arrays dates curves false).2,
           (sort_arrays dates curves false).1⟩ := by
    rw [tryFromLines]
    simp only [List.headD_cons, List.drop_succ_cons, List.drop_zero]
    simp only [hflags, hseqc, hseqd]
  set pairs := rows.filterMap (decodeRow flags) with hpairs
  have hzip : dates.zip curves = rows'.filterMap (decodeRow flags) :=
    zip_decode flags rows' curves dates hlceq hldeq
  have hpairsperm : (dates.zip curves).Perm pairs := by
    rw [hzip]
    exact (hperm.filterMap (decodeRow flags)).symm
  obtain ⟨hsorted_pw, hlen_eq, hzipperm⟩ := sort_arrays_desc_spec dates curves
  have hperm_all : ((sort_arrays dates curves false).1.zip
      (sort_arrays dates curves false).2).Perm pairs :=
    hzipperm.trans hpairsperm
  have hpairs_ne : pairs ≠ [] := by
    obtain ⟨row, rest, rfl⟩ : ∃ row rest, rows = row :: rest := by
      cases rows with
      | nil => exact absurd rfl hne
      | cons row rest => exact ⟨row, rest, rfl⟩
    have h1 := hcur row (List.mem_cons_self _ _)
    have h2 := hdat row (List.mem_cons_self _ _)
    rcases hcv : load_curve row flags with _|cv
    · rw [hcv] at h1
      simp at h1
    rcases hdv : load_date row with _|d
    · rw [hdv] at h2
      simp at h2
    rw [hpairs, List.filterMap_cons]
    simp only [decodeRow, hcv, hdv]
    exact List.cons_ne_nil _ _
  obtain ⟨d0, s1', hs1⟩ : ∃ d0 s1',
      (sort_arrays dates curves false).1 = d0 :: s1' := by
    cases hput : (sort_arrays dates curves false).1 with
    | nil =>
      exfalso
      rw [hput, List.zip_nil_left] at hperm_all
      exact hpairs_ne hperm_all.symm.eq_nil
    | cons a b => exact ⟨a, b, rfl⟩
  obtain ⟨c0, s2', hs2⟩ : ∃ c0 s2',
      (sort_arrays dates curves false).2 = c0 :: s2' := by
    cases hput : (sort_arrays dates curves false).2 with
    | nil =>
      exfalso
      rw [hput, List.zip_nil_right] at hperm_all
      exact hpairs_ne hperm_all.symm.eq_nil
    | cons a b => exact ⟨a, b, rfl⟩
  have hzs : (sort_arrays dates curves false).1.zip
      (sort_arrays dates curves false).2 = (d0, c0) :: s1'.zip s2' := by
    rw [hs1, hs2, List.zip_cons_cons]
  have hhead_mem : (d0, c0) ∈ pairs :=
    hperm_all.mem_iff.mp (by rw [hzs]; exact List.mem_cons_self _ _)
  have hmax : ∀ p ∈ pairs, p.1 ≤ d0 := by
    intro p hp
    have hpz : p ∈ (d0, c0) :: s1'.zip s2' := by
      rw [← hzs]
      exact hperm_all.mem_iff.mpr hp
    rcases List.mem_cons.mp hpz with rfl|hpz'
    · exact le_refl _
    · have hfst : p.1 ∈ s1' := (List.of_mem_zip hpz').1
      have := hsorted_pw
      rw [hs1] at this
      exact (List.pairwise_cons.mp this).1 p.1 hfst
  refine ⟨⟨(sort_arrays dates curves false).2,
      (sort_arrays dates curves false).1⟩, d0, c0, hbuild, ?_, hhead_mem,
      hmax, ?_, ?_, ?_⟩
  · simp only [latest, hs1, hs2]
  · intro row hrow cv hdrow hcrow
    have hmem : (d0, cv) ∈ pairs := by
      rw [hpairs]
      refine List.mem_filterMap.mpr ⟨row, hrow, ?_⟩
      simp [decodeRow, hdrow, hcrow]
    have heq := List.inj_on_of_nodup_map hdist hmem hhead_mem rfl
    injection heq with _ heq
  · exact hperm_all
  · exact hsorted_pw

/-- C7 witness: a two-row CSV given in reversed (ascending) order still
yields the chronologically most recent row from `latest()`. -/
theorem tryFrom_latest_most_recent_witness :
    ∃ h dmax cmax,
      tryFromLines ["Date,1 Mo", "07/07/2023,5.0", "07/06/2023,4.9"] =
        .ok h ∧
      latest h = some (dmax, cmax) ∧
      (dmax, cmax) ∈
        (["07/06/2023,4.9", "07/07/2023,5.0"].filterMap (decodeRow 1)) ∧
      (∀ p ∈ ["07/06/2023,4.9", "07/07/2023,5.0"].filterMap (decodeRow 1),
        p.1 ≤ dmax) ∧
      (∀ row ∈ ["07/06/2023,4.9", "07/07/2023,5.0"], ∀ cv,
        load_date row = some dmax → load_curve row 1 = some cv →
        cv = cmax) ∧
      (h.dates.zip h.curves).Perm
        (["07/06/2023,4.9", "07/07/2023,5.0"].filterMap (decodeRow 1)) ∧
      h.dates.Pairwise (fun a b => a ≥ b) :=
  tryFrom_latest_most_recent "Date,1 Mo"
    ["07/06/2023,4.9", "07/07/2023,5.0"]
    ["07/07/2023,5.0", "07/06/2023,4.9"] 1 (by decide)
    (List.Perm.swap "07/07/2023,5.0" "07/06/2023,4.9" [])
    (by decide) (by decide) (by decide) (by decide)

end USTY
